import Mathlib

/-!
Verification of the CI-string extraction and encoding pipeline of
`src/sqd_helper.hpp` (qiskit-languagebinding-demo).

The C++ code is shallowly embedded as executable Lean definitions:
* `boost::dynamic_bitset<>` rows become `List Bool` (index `i` is bit `i`);
* `uint64_t` CI strings become `Nat` (all claims restrict `norb ≤ 64` and
  `num_elec < 64`, where the C++ arithmetic — including
  `static_cast<uint64_t>(std::pow(2, i))`, which is exact for `i ≤ 63` —
  agrees with unbounded naturals);
* `std::set<uint64_t>` becomes its ascending list of distinct elements,
  built by ordered insertion (`setInsert` / `setOfList`);
* the file write becomes a `FileWrite` record: the content that would be
  written (`none` when opening the file fails) plus whether the error
  branch that prints to `stderr` was taken.
-/

/-- Ordered insertion into the ascending distinct list that models a
`std::set<uint64_t>`: smaller elements first, duplicates collapse. -/
def setInsert (x : Nat) : List Nat → List Nat
  | [] => [x]
  | y :: ys =>
    if x < y then x :: y :: ys
    else if x = y then y :: ys
    else y :: setInsert x ys

/-- The ascending distinct-element list of a `std::set<uint64_t>` built by
inserting every element of `l` in order. -/
def setOfList (l : List Nat) : List Nat :=
  l.foldl (fun s x => setInsert x s) []

/-- One sector-encoding loop of `bitstring_matrix_to_ci_strs`
(`sqd_helper.hpp` lines 67–73): starting from 0, for `i = 0 .. norb-1`,
add `2^i` whenever `row[start + i]` is set.  `start = 0` is the loop over
`row[i]` (low half), `start = norb` the loop over `row[i + norb]`. -/
def sector_value (row : List Bool) (start norb : Nat) : Nat :=
  (List.range norb).foldl
    (fun acc i => if row.getD (start + i) false then acc + 2 ^ i else acc) 0

/-- The CI-string encoder applied to one whole bit sector: the sum of `2^i`
over all set bit positions `i` of the sector. -/
def ci_encode (bits : List Bool) : Nat :=
  sector_value bits 0 bits.length

/-- Decoding bit `i` of an encoded CI string as `(value >> i) & 1`, for
`i = 0 .. norb-1`. -/
def ci_decode (norb value : Nat) : List Bool :=
  (List.range norb).map (fun i => (value >>> i) &&& 1 == 1)

/-- `bitstring_matrix_to_ci_strs` (`sqd_helper.hpp` lines 53–94).
`norb` is recovered as half the length of row 0; `ci_str_left` collects
bits `[0, norb)` of each row, `ci_str_right` bits `[norb, 2*norb)`;
both are deduplicated through `std::set`; with `open_shell = false` the
union of the two sets replaces both.  The function returns
`{result_right, result_left}`: the right set is the FIRST component. -/
def bitstring_matrix_to_ci_strs
    (bitstring_matrix : List (List Bool)) (open_shell : Bool) :
    List Nat × List Nat :=
  let norb := (bitstring_matrix.headD []).length / 2
  let ci_str_left := bitstring_matrix.map (fun row => sector_value row 0 norb)
  let ci_str_right := bitstring_matrix.map (fun row => sector_value row norb norb)
  let unique_ci_str_left := setOfList ci_str_left
  let unique_ci_str_right := setOfList ci_str_right
  if open_shell then (unique_ci_str_right, unique_ci_str_left)
  else
    let combined_set := setOfList (unique_ci_str_left ++ unique_ci_str_right)
    (combined_set, combined_set)

/-- Guarded variant of `bitstring_matrix_to_ci_strs` making the
`bitstring_matrix[0]` access explicit: on an empty batch the indexed
element does not exist and no result is defined. -/
def bitstring_matrix_to_ci_strs_checked
    (bitstring_matrix : List (List Bool)) (open_shell : Bool) :
    Option (List Nat × List Nat) :=
  match bitstring_matrix.head? with
  | none => none
  | some _ => some (bitstring_matrix_to_ci_strs bitstring_matrix open_shell)

/-- Little-endian byte decomposition: exactly the successive values
`n & 0xFF` taken by the loop of `integer_to_bytes` as `n >>= 8`. -/
def bytesLE : Nat → Nat → List Nat
  | 0, _ => []
  | k + 1, n => n % 256 :: bytesLE k (n / 256)

/-- `integer_to_bytes` (`sqd_helper.hpp` lines 172–184): `(norb + 7) / 8`
bytes, filled from the last index down to index 0 with `n & 0xFF` while
`n >>= 8` — i.e. the reversal of the little-endian decomposition. -/
def integer_to_bytes (n : Nat) (norb : Nat) : List Nat :=
  (bytesLE ((norb + 7) / 8) n).reverse

/-- The numeric value of a byte list read big-endian (most significant
byte first), used to state what `integer_to_bytes` encodes. -/
def bytesToNatBE (bs : List Nat) : Nat :=
  bs.foldl (fun acc b => 256 * acc + b) 0

/-- `ci_strs_to_bytes` (`sqd_helper.hpp` lines 186–195): one record per CI
string, in input order. -/
def ci_strs_to_bytes (ci_strs : List Nat) (norb : Nat) : List (List Nat) :=
  ci_strs.map (fun ci_str => integer_to_bytes ci_str norb)

/-- `get_unique_ci_strs_with_HF` (`sqd_helper.hpp` lines 197–212): a
`std::set` receives `(1 << num_elec) - 1` when `with_hf` is set, then all
left and all right CI strings; the set is copied out ascending (the
trailing `std::sort` re-sorts an already ascending vector). -/
def get_unique_ci_strs_with_HF
    (with_hf : Bool) (left_ci_strs right_ci_strs : List Nat)
    (num_elec : Nat) : List Nat :=
  setOfList ((if with_hf then [2 ^ num_elec - 1] else [])
    ++ left_ci_strs ++ right_ci_strs)

/-- Outcome of `write_bytestrings_to_file`: the bytes the stream received
(`none` when the open failed) and whether the error branch that prints
to `stderr` ran. -/
structure FileWrite where
  content : Option (List Nat)
  error_logged : Bool
  deriving DecidableEq

/-- `write_bytestrings_to_file` (`sqd_helper.hpp` lines 214–233): when the
open fails it prints an error and plainly returns (nothing written); when
it succeeds it writes every byte string back to back, no separators. -/
def write_bytestrings_to_file
    (open_ok : Bool) (byte_strings : List (List Nat)) : FileWrite :=
  if open_ok then ⟨some byte_strings.flatten, false⟩
  else ⟨none, true⟩

/-- The truncation step of `write_alphadets_file` (lines 256–265): keep
the vector when its size is strictly below the budget, else `resize` it
down to the budget. -/
def truncate_list (l : List Nat) (maximum_numbers_of_ctrs : Nat) : List Nat :=
  if l.length < maximum_numbers_of_ctrs then l
  else l.take maximum_numbers_of_ctrs

/-- The `truncated` count logged by `write_alphadets_file`: zero on the
no-truncation branch, `size - budget` otherwise. -/
def truncated_count (l : List Nat) (maximum_numbers_of_ctrs : Nat) : Nat :=
  if l.length < maximum_numbers_of_ctrs then 0
  else l.length - maximum_numbers_of_ctrs

/-- The sequence of CI strings `write_alphadets_file` serializes:
split/encode (closed shell: `open_shell` is hard-coded `false`), merge
with the optional Hartree-Fock reference, truncate to the budget. -/
def write_alphadets_ci_strs
    (with_hf : Bool) (num_elec : Nat) (batch : List (List Bool))
    (maximum_numbers_of_ctrs : Nat) : List Nat :=
  let ci_strs := bitstring_matrix_to_ci_strs batch false
  truncate_list
    (get_unique_ci_strs_with_HF with_hf ci_strs.1 ci_strs.2 num_elec)
    maximum_numbers_of_ctrs

/-- `write_alphadets_file` (`sqd_helper.hpp` lines 235–271): runs the
pipeline, writes the byte strings (the open may fail), and returns the
artifact filename unconditionally. -/
def write_alphadets_file
    (open_ok with_hf : Bool) (run_id : String) (norb num_elec : Nat)
    (batch : List (List Bool)) (maximum_numbers_of_ctrs i_recovery : Nat) :
    String × FileWrite :=
  let unique_ci_strs := write_alphadets_ci_strs with_hf num_elec batch
    maximum_numbers_of_ctrs
  let bytestrings := ci_strs_to_bytes unique_ci_strs norb
  let alphadets_bin_file :=
    "AlphaDets_" ++ run_id ++ "_" ++ toString i_recovery ++ "_cpp.bin"
  (alphadets_bin_file, write_bytestrings_to_file open_ok bytestrings)

/-! ### Lemmas about the `std::set` model -/

theorem mem_setInsert (a x : Nat) (s : List Nat) :
    a ∈ setInsert x s ↔ a = x ∨ a ∈ s := by
  induction s with
  | nil => simp [setInsert]
  | cons y ys ih =>
    by_cases h1 : x < y
    · simp [setInsert, h1]
    · by_cases h2 : x = y
      · simp only [setInsert, if_neg h1, if_pos h2, List.mem_cons]
        subst h2
        tauto
      · simp only [setInsert, if_neg h1, if_neg h2, List.mem_cons, ih]
        tauto

theorem setInsert_sorted {s : List Nat} (hs : List.Sorted (· < ·) s)
    (x : Nat) : List.Sorted (· < ·) (setInsert x s) := by
  induction s with
  | nil => simp [setInsert]
  | cons y ys ih =>
    rw [List.sorted_cons] at hs
    obtain ⟨hy, hys⟩ := hs
    by_cases h1 : x < y
    · simp only [setInsert, if_pos h1]
      rw [List.sorted_cons]
      refine ⟨?_, List.sorted_cons.mpr ⟨hy, hys⟩⟩
      intro b hb
      rcases List.mem_cons.mp hb with rfl | hb
      · exact h1
      · exact h1.trans (hy b hb)
    · by_cases h2 : x = y
      · simp only [setInsert, if_neg h1, if_pos h2]
        exact List.sorted_cons.mpr ⟨hy, hys⟩
      · simp only [setInsert, if_neg h1, if_neg h2]
        rw [List.sorted_cons]
        refine ⟨?_, ih hys⟩
        intro b hb
        rcases (mem_setInsert b x ys).mp hb with rfl | hb
        · omega
        · exact hy b hb

theorem foldl_setInsert_sorted (l : List Nat) :
    ∀ s : List Nat, List.Sorted (· < ·) s →
      List.Sorted (· < ·) (l.foldl (fun s x => setInsert x s) s) := by
  induction l with
  | nil => intro s hs; simpa using hs
  | cons x xs ih =>
    intro s hs
    exact ih (setInsert x s) (setInsert_sorted hs x)

theorem setOfList_sorted (l : List Nat) :
    List.Sorted (· < ·) (setOfList l) :=
  foldl_setInsert_sorted l [] (by simp)

theorem mem_foldl_setInsert (l : List Nat) :
    ∀ (s : List Nat) (a : Nat),
      a ∈ l.foldl (fun s x => setInsert x s) s ↔ a ∈ s ∨ a ∈ l := by
  induction l with
  | nil => intro s a; simp
  | cons x xs ih =>
    intro s a
    rw [List.foldl_cons, ih (setInsert x s) a, mem_setInsert]
    simp
    tauto

theorem mem_setOfList (a : Nat) (l : List Nat) :
    a ∈ setOfList l ↔ a ∈ l := by
  rw [setOfList, mem_foldl_setInsert]
  simp

theorem toFinset_setOfList (l : List Nat) :
    (setOfList l).toFinset = l.toFinset := by
  apply Finset.ext
  intro a
  simp [List.mem_toFinset, mem_setOfList]

/-! ### Lemmas about the CI-string encoder -/

/-- Little-endian recursive form of the encoder, used as a proof vehicle. -/
def encAux : List Bool → Nat
  | [] => 0
  | b :: bs => (if b then 1 else 0) + 2 * encAux bs

theorem foldl_range_if (c : Nat → Bool) (g : Nat → Nat) (n : Nat) (a : Nat) :
    (List.range n).foldl (fun acc i => if c i then acc + g i else acc) a
      = a + ∑ i in Finset.range n, (if c i then g i else 0) := by
  induction n with
  | zero => simp
  | succ n ih =>
    rw [List.range_succ, List.foldl_append, ih, Finset.sum_range_succ]
    by_cases h : c n <;> simp [h, Nat.add_assoc]

theorem sector_value_eq_sum (row : List Bool) (start norb : Nat) :
    sector_value row start norb
      = ∑ i in Finset.range norb,
          (if row.getD (start + i) false then 2 ^ i else 0) := by
  rw [sector_value, foldl_range_if (fun i => row.getD (start + i) false)
    (fun i => 2 ^ i) norb 0, Nat.zero_add]

theorem encAux_eq_sum (bits : List Bool) :
    encAux bits
      = ∑ i in Finset.range bits.length,
          (if bits.getD i false then 2 ^ i else 0) := by
  induction bits with
  | nil => simp [encAux]
  | cons b bs ih =>
    rw [encAux, List.length_cons, Finset.sum_range_succ']
    simp only [List.getD_cons_succ, List.getD_cons_zero, pow_zero, pow_succ]
    have hsum : ∑ i in Finset.range bs.length,
        (if bs.getD i false then 2 ^ i * 2 else 0)
        = 2 * ∑ i in Finset.range bs.length,
            (if bs.getD i false then 2 ^ i else 0) := by
      rw [Finset.mul_sum]
      apply Finset.sum_congr rfl
      intro i _
      by_cases h : bs.getD i false <;> simp [h, Nat.mul_comm]
    rw [hsum, ih]
    omega

theorem ci_encode_eq_encAux (bits : List Bool) :
    ci_encode bits = encAux bits := by
  rw [ci_encode, sector_value_eq_sum, encAux_eq_sum]
  apply Finset.sum_congr rfl
  intro i _
  rw [Nat.zero_add]

theorem encAux_lt (bits : List Bool) : encAux bits < 2 ^ bits.length := by
  induction bits with
  | nil => simp [encAux]
  | cons b bs ih =>
    rw [encAux, List.length_cons, pow_succ]
    by_cases h : b <;> simp [h] <;> omega

theorem ci_encode_lt (bits : List Bool) :
    ci_encode bits < 2 ^ bits.length := by
  rw [ci_encode_eq_encAux]; exact encAux_lt bits

theorem ci_decode_eq_div (norb v : Nat) :
    ci_decode norb v
      = (List.range norb).map (fun i => v / 2 ^ i % 2 == 1) := by
  apply List.map_congr_left
  intro i _
  rw [Nat.shiftRight_eq_div_pow, Nat.and_one_is_mod]

theorem decode_div_succ (n v : Nat) :
    (List.range (n + 1)).map (fun i => v / 2 ^ i % 2 == 1)
      = (v % 2 == 1) ::
        (List.range n).map (fun i => (v / 2) / 2 ^ i % 2 == 1) := by
  rw [List.range_succ_eq_map, List.map_cons, List.map_map]
  simp only [pow_zero, Nat.div_one]
  congr 1
  apply List.map_congr_left
  intro i _
  have h : v / 2 ^ (i + 1) = v / 2 / 2 ^ i := by
    rw [Nat.div_div_eq_div_mul, pow_succ, Nat.mul_comm 2 (2 ^ i)]
  simp [Function.comp, h]

theorem decode_encAux (bits : List Bool) :
    (List.range bits.length).map
        (fun i => encAux bits / 2 ^ i % 2 == 1) = bits := by
  induction bits with
  | nil => simp
  | cons b bs ih =>
    rw [List.length_cons, decode_div_succ]
    have hhead : (encAux (b :: bs) % 2 == 1) = b := by
      cases b <;> simp [encAux, Nat.add_mul_mod_self_left]
    have htail : encAux (b :: bs) / 2 = encAux bs := by
      cases b
      · simp [encAux]
      · simp [encAux]
        omega
    rw [hhead, htail, ih]

theorem ci_decode_ci_encode (bits : List Bool) :
    ci_decode bits.length (ci_encode bits) = bits := by
  rw [ci_decode_eq_div, ci_encode_eq_encAux, decode_encAux]

theorem encAux_decode (n : Nat) :
    ∀ v : Nat, v < 2 ^ n →
      encAux ((List.range n).map (fun i => v / 2 ^ i % 2 == 1)) = v := by
  induction n with
  | zero =>
    intro v hv
    interval_cases v
    simp [encAux]
  | succ n ih =>
    intro v hv
    rw [decode_div_succ, encAux]
    have hlt : v / 2 < 2 ^ n := by
      rw [pow_succ] at hv
      omega
    rw [ih (v / 2) hlt]
    rcases Nat.mod_two_eq_zero_or_one v with h | h
    · simp [h]
      omega
    · simp [h]
      omega

theorem ci_encode_ci_decode (n v : Nat) (hv : v < 2 ^ n) :
    ci_encode (ci_decode n v) = v := by
  have hlen : (ci_decode n v).length = n := by
    simp [ci_decode]
  rw [ci_encode_eq_encAux, ci_decode_eq_div, encAux_decode n v hv]

theorem ci_decode_length (n v : Nat) : (ci_decode n v).length = n := by
  simp [ci_decode]

/-! ### Lemmas about the byte serializer -/

theorem bytesLE_length (k : Nat) : ∀ n : Nat, (bytesLE k n).length = k := by
  induction k with
  | zero => intro n; simp [bytesLE]
  | succ k ih => intro n; simp [bytesLE, ih]

theorem bytesLE_lt (k : Nat) :
    ∀ n : Nat, ∀ b ∈ bytesLE k n, b < 256 := by
  induction k with
  | zero => intro n b hb; simp [bytesLE] at hb
  | succ k ih =>
    intro n b hb
    rw [bytesLE, List.mem_cons] at hb
    rcases hb with rfl | hb
    · omega
    · exact ih (n / 256) b hb

theorem bytesToNatBE_append_singleton (bs : List Nat) (b : Nat) :
    bytesToNatBE (bs ++ [b]) = 256 * bytesToNatBE bs + b := by
  rw [bytesToNatBE, bytesToNatBE, List.foldl_append]
  simp

theorem bytesToNatBE_reverse_bytesLE (k : Nat) :
    ∀ n : Nat, bytesToNatBE ((bytesLE k n).reverse) = n % 256 ^ k := by
  induction k with
  | zero => intro n; simp [bytesLE, bytesToNatBE, Nat.mod_one]
  | succ k ih =>
    intro n
    rw [bytesLE, List.reverse_cons, bytesToNatBE_append_singleton,
      ih (n / 256), pow_succ, Nat.mul_comm (256 ^ k) 256, Nat.mod_mul]
    omega

theorem pow256_eq_pow2 (k : Nat) : 256 ^ k = 2 ^ (8 * k) := by
  have h : (256 : Nat) = 2 ^ 8 := by norm_num
  rw [h, ← pow_mul]

theorem bytesLE_mod (k : Nat) :
    ∀ n : Nat, bytesLE k (n % 256 ^ k) = bytesLE k n := by
  induction k with
  | zero => intro n; simp [bytesLE]
  | succ k ih =>
    intro n
    have hdvd : (256 : Nat) ∣ 256 ^ (k + 1) := dvd_pow_self 256 (Nat.succ_ne_zero k)
    have h1 : n % 256 ^ (k + 1) % 256 = n % 256 := Nat.mod_mod_of_dvd n hdvd
    have h2 : n % 256 ^ (k + 1) / 256 = n / 256 % 256 ^ k := by
      rw [pow_succ, Nat.mul_comm (256 ^ k) 256]
      exact Nat.mod_mul_right_div_self n 256 (256 ^ k)
    rw [bytesLE, bytesLE, h1, h2, ih (n / 256)]

/-! ### Sector values as encodings of row slices -/

theorem sector_value_take (row : List Bool) (norb : Nat)
    (h : norb ≤ row.length) :
    sector_value row 0 norb = ci_encode (row.take norb) := by
  rw [ci_encode, List.length_take, Nat.min_eq_left h, sector_value,
    sector_value]
  apply List.foldl_ext
  intro a i hi
  have hi2 : i < norb := List.mem_range.mp hi
  have hgd : (row.take norb).getD (0 + i) false = row.getD (0 + i) false := by
    simp only [List.getD_eq_getElem?_getD]
    rw [List.getElem?_take_of_lt (by omega)]
  rw [hgd]

theorem sector_value_drop (row : List Bool) (norb : Nat)
    (h : row.length = 2 * norb) :
    sector_value row norb norb = ci_encode (row.drop norb) := by
  have hlen : (row.drop norb).length = norb := by
    rw [List.length_drop, h]
    omega
  rw [ci_encode, hlen, sector_value, sector_value]
  apply List.foldl_ext
  intro a i hi
  have hgd : (row.drop norb).getD (0 + i) false
      = row.getD (norb + i) false := by
    simp only [List.getD_eq_getElem?_getD]
    rw [List.getElem?_drop, Nat.add_comm 0 i, Nat.add_zero]
  rw [hgd]

/-! ### Sortedness and truncation lemmas -/

theorem truncate_list_sorted {l : List Nat} (hl : List.Sorted (· < ·) l)
    (k : Nat) : List.Sorted (· < ·) (truncate_list l k) := by
  rw [truncate_list]
  by_cases h : l.length < k
  · simpa [h] using hl
  · simp only [if_neg h]
    exact List.Pairwise.sublist (List.take_sublist k l) hl

theorem truncate_list_length (l : List Nat) (k : Nat) :
    (truncate_list l k).length ≤ k := by
  rw [truncate_list]
  by_cases h : l.length < k
  · simp [h]
    omega
  · simp [h]

theorem sorted_take_lt_dropped {l : List Nat}
    (hl : List.Sorted (· < ·) l) (k : Nat) :
    ∀ x ∈ l.take k, ∀ y ∈ l, y ∉ l.take k → x < y := by
  intro x hx y hy hyn
  have hl2 : List.Pairwise (· < ·) (l.take k ++ l.drop k) := by
    rw [List.take_append_drop]
    exact hl
  have hy2 : y ∈ l.take k ++ l.drop k := by
    rw [List.take_append_drop]
    exact hy
  rcases List.mem_append.mp hy2 with h | h
  · exact absurd h hyn
  · exact (List.pairwise_append.mp hl2).2.2 x hx y h

/-! ### Claim theorems -/

/-- Claim C1: for every `norb` in `[1, 64]` and every CI string
`n < 2^norb`, `integer_to_bytes n norb` is exactly `ceil(norb/8)` bytes
forming the big-endian base-256 representation of `n` (so all unused
high-order bits are zero), and the serialization pipeline emits the
records of `ci_strs_to_bytes` concatenated in input order with no
separators, header or length prefix. -/
theorem bigendian_serialization_spec (norb : Nat) (_h1 : 1 ≤ norb)
    (_h64 : norb ≤ 64) (n : Nat) (hn : n < 2 ^ norb) (ci_strs : List Nat) :
    (integer_to_bytes n norb).length = (norb + 7) / 8
    ∧ (∀ b ∈ integer_to_bytes n norb, b < 256)
    ∧ bytesToNatBE (integer_to_bytes n norb) = n
    ∧ (write_bytestrings_to_file true (ci_strs_to_bytes ci_strs norb)).content
        = some ((ci_strs.map (fun c => integer_to_bytes c norb)).flatten) := by
  refine ⟨?_, ?_, ?_, rfl⟩
  · rw [integer_to_bytes, List.length_reverse, bytesLE_length]
  · intro b hb
    rw [integer_to_bytes, List.mem_reverse] at hb
    exact bytesLE_lt _ n b hb
  · rw [integer_to_bytes, bytesToNatBE_reverse_bytesLE]
    apply Nat.mod_eq_of_lt
    calc n < 2 ^ norb := hn
      _ ≤ 256 ^ ((norb + 7) / 8) := by
          rw [pow256_eq_pow2]
          exact Nat.pow_le_pow_right (by norm_num) (by omega)

theorem bigendian_serialization_spec_witness :
    1 ≤ 12 ∧ 12 ≤ 64 ∧ 515 < 2 ^ 12
    ∧ ((integer_to_bytes 515 12).length = (12 + 7) / 8
      ∧ (∀ b ∈ integer_to_bytes 515 12, b < 256)
      ∧ bytesToNatBE (integer_to_bytes 515 12) = 515
      ∧ (write_bytestrings_to_file true
            (ci_strs_to_bytes [515, 3] 12)).content
          = some (([515, 3].map (fun c => integer_to_bytes c 12)).flatten)) :=
  ⟨by decide, by decide, by decide,
    bigendian_serialization_spec 12 (by decide) (by decide) 515 (by decide)
      [515, 3]⟩

/-- Claim C2: for every `norb ≤ 64` and every bit sector of width `norb`,
encoding (sum of `2^i` over set bits) then decoding bit `i` as
`(value >> i) & 1` reproduces the sector exactly; the encoder lands in
`[0, 2^norb)` and decoding is a two-sided inverse there, so the encoder
is a bijection between width-`norb` bit patterns and `[0, 2^norb)`. -/
theorem ci_encode_bijection (bits : List Bool) (_h64 : bits.length ≤ 64) :
    ci_decode bits.length (ci_encode bits) = bits
    ∧ ci_encode bits < 2 ^ bits.length
    ∧ ∀ v < 2 ^ bits.length,
        ci_encode (ci_decode bits.length v) = v
        ∧ (ci_decode bits.length v).length = bits.length :=
  ⟨ci_decode_ci_encode bits, ci_encode_lt bits,
    fun v hv => ⟨ci_encode_ci_decode _ v hv, ci_decode_length _ v⟩⟩

theorem ci_encode_bijection_witness :
    [true, false, true].length ≤ 64
    ∧ (ci_decode [true, false, true].length (ci_encode [true, false, true])
          = [true, false, true]
      ∧ ci_encode [true, false, true] < 2 ^ [true, false, true].length
      ∧ ∀ v < 2 ^ [true, false, true].length,
          ci_encode (ci_decode [true, false, true].length v) = v
          ∧ (ci_decode [true, false, true].length v).length
              = [true, false, true].length) :=
  ⟨by decide, ci_encode_bijection [true, false, true] (by decide)⟩

/-- Claim C5: with the with-reference flag set, for every pair of input
CI-string lists and every `num_elec < 64`, the merged unique set of
`get_unique_ci_strs_with_HF` contains the Hartree-Fock reference value
`2^num_elec - 1` (before any truncation). -/
theorem hf_reference_membership (left_ci_strs right_ci_strs : List Nat)
    (num_elec : Nat) (_h : num_elec < 64) :
    2 ^ num_elec - 1 ∈
      get_unique_ci_strs_with_HF true left_ci_strs right_ci_strs num_elec := by
  rw [get_unique_ci_strs_with_HF, mem_setOfList]
  simp

theorem hf_reference_membership_witness :
    2 < 64
    ∧ 2 ^ 2 - 1 ∈ get_unique_ci_strs_with_HF true [7, 9] [12] 2 :=
  ⟨by decide, hf_reference_membership [7, 9] [12] 2 (by decide)⟩

/-- Claim C10: for every `norb` in `[1, 64]` and every
`n ≥ 2^(8*ceil(norb/8))`, `integer_to_bytes` silently wraps `n` modulo
the record width `2^(8*ceil(norb/8))`: the bytes emitted for `n` are
exactly those emitted for `n mod 2^(8*ceil(norb/8))` — values too wide
are never rejected or widened. -/
theorem integer_to_bytes_wraparound (norb n : Nat) (_h1 : 1 ≤ norb)
    (_h64 : norb ≤ 64) (_hn : 2 ^ (8 * ((norb + 7) / 8)) ≤ n) :
    integer_to_bytes n norb
      = integer_to_bytes (n % 2 ^ (8 * ((norb + 7) / 8))) norb := by
  rw [integer_to_bytes, integer_to_bytes, ← pow256_eq_pow2, bytesLE_mod]

theorem integer_to_bytes_wraparound_witness :
    1 ≤ 4 ∧ 4 ≤ 64 ∧ 2 ^ (8 * ((4 + 7) / 8)) ≤ 300
    ∧ integer_to_bytes 300 4
        = integer_to_bytes (300 % 2 ^ (8 * ((4 + 7) / 8))) 4 :=
  ⟨by decide, by decide, by decide,
    integer_to_bytes_wraparound 4 300 (by decide) (by decide) (by decide)⟩

/-- Claim C3: for every batch and configuration, the CI-string sequence
that `write_alphadets_file` serializes is sorted ascending and never
longer than the budget; when the merged unique set exceeds the budget,
exactly the budget smallest-valued members are retained (every retained
element is smaller than every dropped one). -/
theorem alphadets_sorted_truncation (with_hf : Bool) (num_elec : Nat)
    (batch : List (List Bool)) (maxN : Nat) (_hb : batch ≠ []) :
    List.Sorted (· < ·) (write_alphadets_ci_strs with_hf num_elec batch maxN)
    ∧ (write_alphadets_ci_strs with_hf num_elec batch maxN).length ≤ maxN
    ∧ (maxN < (get_unique_ci_strs_with_HF with_hf
            (bitstring_matrix_to_ci_strs batch false).1
            (bitstring_matrix_to_ci_strs batch false).2 num_elec).length →
        (write_alphadets_ci_strs with_hf num_elec batch maxN).length = maxN
        ∧ ∀ x ∈ write_alphadets_ci_strs with_hf num_elec batch maxN,
            ∀ y ∈ get_unique_ci_strs_with_HF with_hf
                (bitstring_matrix_to_ci_strs batch false).1
                (bitstring_matrix_to_ci_strs batch false).2 num_elec,
              y ∉ write_alphadets_ci_strs with_hf num_elec batch maxN →
                x < y) := by
  have hfull : List.Sorted (· < ·) (get_unique_ci_strs_with_HF with_hf
      (bitstring_matrix_to_ci_strs batch false).1
      (bitstring_matrix_to_ci_strs batch false).2 num_elec) :=
    setOfList_sorted _
  have heq : write_alphadets_ci_strs with_hf num_elec batch maxN
      = truncate_list (get_unique_ci_strs_with_HF with_hf
          (bitstring_matrix_to_ci_strs batch false).1
          (bitstring_matrix_to_ci_strs batch false).2 num_elec) maxN := rfl
  refine ⟨heq ▸ truncate_list_sorted hfull maxN,
    heq ▸ truncate_list_length _ maxN, ?_⟩
  intro hgt
  have htr : truncate_list (get_unique_ci_strs_with_HF with_hf
      (bitstring_matrix_to_ci_strs batch false).1
      (bitstring_matrix_to_ci_strs batch false).2 num_elec) maxN
      = (get_unique_ci_strs_with_HF with_hf
          (bitstring_matrix_to_ci_strs batch false).1
          (bitstring_matrix_to_ci_strs batch false).2 num_elec).take maxN := by
    rw [truncate_list, if_neg (by omega)]
  constructor
  · rw [heq, htr, List.length_take]
    omega
  · intro x hx y hy hyn
    rw [heq, htr] at hx hyn
    exact sorted_take_lt_dropped hfull maxN x hx y hy hyn

theorem alphadets_sorted_truncation_witness :
    ([[true, true, false, false, true, false, false, false],
      [false, true, false, false, true, false, false, false]]
        : List (List Bool)) ≠ []
    ∧ (List.Sorted (· < ·) (write_alphadets_ci_strs true 2
        [[true, true, false, false, true, false, false, false],
         [false, true, false, false, true, false, false, false]] 2)
      ∧ (write_alphadets_ci_strs true 2
          [[true, true, false, false, true, false, false, false],
           [false, true, false, false, true, false, false, false]] 2).length
            ≤ 2
      ∧ (2 < (get_unique_ci_strs_with_HF true
            (bitstring_matrix_to_ci_strs
              [[true, true, false, false, true, false, false, false],
               [false, true, false, false, true, false, false, false]]
              false).1
            (bitstring_matrix_to_ci_strs
              [[true, true, false, false, true, false, false, false],
               [false, true, false, false, true, false, false, false]]
              false).2 2).length →
          (write_alphadets_ci_strs true 2
            [[true, true, false, false, true, false, false, false],
             [false, true, false, false, true, false, false, false]] 2).length
              = 2
          ∧ ∀ x ∈ write_alphadets_ci_strs true 2
              [[true, true, false, false, true, false, false, false],
               [false, true, false, false, true, false, false, false]] 2,
              ∀ y ∈ get_unique_ci_strs_with_HF true
                  (bitstring_matrix_to_ci_strs
                    [[true, true, false, false, true, false, false, false],
                     [false, true, false, false, true, false, false, false]]
                    false).1
                  (bitstring_matrix_to_ci_strs
                    [[true, true, false, false, true, false, false, false],
                     [false, true, false, false, true, false, false, false]]
                    false).2 2,
                y ∉ write_alphadets_ci_strs true 2
                    [[true, true, false, false, true, false, false, false],
                     [false, true, false, false, true, false, false, false]]
                    2 →
                  x < y)) :=
  ⟨by decide,
    alphadets_sorted_truncation true 2
      [[true, true, false, false, true, false, false, false],
       [false, true, false, false, true, false, false, false]] 2
      (by decide)⟩

/-- Claim C4: in closed-shell mode (`open_shell = false`) the two returned
CI-string collections are equal, and each equals (as a set) the union of
the unique CI-string sets the two sectors would have produced
independently (the `open_shell = true` outputs). -/
theorem closed_shell_symmetry (batch : List (List Bool)) (_hb : batch ≠ []) :
    (bitstring_matrix_to_ci_strs batch false).1
        = (bitstring_matrix_to_ci_strs batch false).2
    ∧ ((bitstring_matrix_to_ci_strs batch false).1).toFinset
        = ((bitstring_matrix_to_ci_strs batch true).1).toFinset
          ∪ ((bitstring_matrix_to_ci_strs batch true).2).toFinset := by
  refine ⟨rfl, ?_⟩
  show (setOfList (setOfList _ ++ setOfList _)).toFinset = _
  rw [toFinset_setOfList, List.toFinset_append, Finset.union_comm]
  rfl

theorem closed_shell_symmetry_witness :
    ([[true, false, true, false], [false, true, false, false]]
        : List (List Bool)) ≠ []
    ∧ ((bitstring_matrix_to_ci_strs
          [[true, false, true, false], [false, true, false, false]] false).1
        = (bitstring_matrix_to_ci_strs
            [[true, false, true, false], [false, true, false, false]] false).2
      ∧ ((bitstring_matrix_to_ci_strs
            [[true, false, true, false], [false, true, false, false]]
            false).1).toFinset
          = ((bitstring_matrix_to_ci_strs
                [[true, false, true, false], [false, true, false, false]]
                true).1).toFinset
            ∪ ((bitstring_matrix_to_ci_strs
                  [[true, false, true, false], [false, true, false, false]]
                  true).2).toFinset) :=
  ⟨by decide,
    closed_shell_symmetry
      [[true, false, true, false], [false, true, false, false]] (by decide)⟩

/-- Claim C7 fails on the code: for the single configuration
`[true, false]` (`norb = 1`, low-half bit set, high-half bit clear) in
open-shell mode, the FIRST component of the returned pair is the
encoding of the HIGH half `[false]` (value 0), not of the low half
`[true]` (value 1) as the claim predicts. -/
theorem sector_assignment_cex :
    (bitstring_matrix_to_ci_strs [[true, false]] true).1
        = [ci_encode [false]]
    ∧ (bitstring_matrix_to_ci_strs [[true, false]] true).1
        ≠ [ci_encode [true]] := by
  decide

/-- Claim C7 amended: in open-shell mode, the first component of the
pair returned by `bitstring_matrix_to_ci_strs` (designated "right" by
the code) holds the base-2 values of the HIGH-half bits `[norb, 2*norb)`
of each configuration, and the second component ("left") the base-2
values of the LOW-half bits `[0, norb)` — the opposite of the claimed
assignment. -/
theorem sector_assignment_amended (norb : Nat) (batch : List (List Bool))
    (hb : batch ≠ []) (hlen : ∀ row ∈ batch, row.length = 2 * norb) :
    (bitstring_matrix_to_ci_strs batch true).1
        = setOfList (batch.map (fun row => ci_encode (row.drop norb)))
    ∧ (bitstring_matrix_to_ci_strs batch true).2
        = setOfList (batch.map (fun row => ci_encode (row.take norb))) := by
  have hnorb : (batch.headD []).length / 2 = norb := by
    cases batch with
    | nil => exact absurd rfl hb
    | cons r t =>
      have hr : r.length = 2 * norb := hlen r (by simp)
      simp only [List.headD_cons, hr]
      omega
  constructor
  · rw [show (bitstring_matrix_to_ci_strs batch true).1
        = setOfList (batch.map (fun row =>
            sector_value row ((batch.headD []).length / 2)
              ((batch.headD []).length / 2))) from rfl, hnorb]
    congr 1
    apply List.map_congr_left
    intro row hrow
    exact sector_value_drop row norb (hlen row hrow)
  · rw [show (bitstring_matrix_to_ci_strs batch true).2
        = setOfList (batch.map (fun row =>
            sector_value row 0 ((batch.headD []).length / 2))) from rfl,
      hnorb]
    congr 1
    apply List.map_congr_left
    intro row hrow
    exact sector_value_take row norb (by rw [hlen row hrow]; omega)

theorem sector_assignment_amended_witness :
    ([[true, false], [false, true]] : List (List Bool)) ≠ []
    ∧ (∀ row ∈ ([[true, false], [false, true]] : List (List Bool)),
        row.length = 2 * 1)
    ∧ ((bitstring_matrix_to_ci_strs [[true, false], [false, true]] true).1
        = setOfList (([[true, false], [false, true]] : List (List Bool)).map
            (fun row => ci_encode (row.drop 1)))
      ∧ (bitstring_matrix_to_ci_strs [[true, false], [false, true]] true).2
          = setOfList (([[true, false], [false, true]] : List (List Bool)).map
              (fun row => ci_encode (row.take 1)))) :=
  ⟨by decide, by decide,
    sector_assignment_amended 1 [[true, false], [false, true]]
      (by decide) (by decide)⟩

/-- Claim C6: for `norb = 4`, `num_elec = 2`, with-reference enabled,
closed-shell mode, and the batch of the two 8-bit configurations with
low halves `1,1,0,0` / `0,1,0,0` and high halves both `1,0,0,0`: the
merged unique set is `{1, 2, 3}`; with budget 10 the pipeline serializes
exactly the three one-byte records `0x01 0x02 0x03` in ascending order;
with budget 2 it serializes exactly `0x01 0x02` and the dropped count
is 1. -/
theorem scenario_norb4 :
    get_unique_ci_strs_with_HF true
        (bitstring_matrix_to_ci_strs
          [[true, true, false, false, true, false, false, false],
           [false, true, false, false, true, false, false, false]] false).1
        (bitstring_matrix_to_ci_strs
          [[true, true, false, false, true, false, false, false],
           [false, true, false, false, true, false, false, false]] false).2
        2 = [1, 2, 3]
    ∧ ci_strs_to_bytes
        (write_alphadets_ci_strs true 2
          [[true, true, false, false, true, false, false, false],
           [false, true, false, false, true, false, false, false]] 10) 4
        = [[1], [2], [3]]
    ∧ (write_alphadets_file true true "r" 4 2
        [[true, true, false, false, true, false, false, false],
         [false, true, false, false, true, false, false, false]]
        10 0).2.content = some [1, 2, 3]
    ∧ (write_alphadets_file true true "r" 4 2
        [[true, true, false, false, true, false, false, false],
         [false, true, false, false, true, false, false, false]]
        2 0).2.content = some [1, 2]
    ∧ truncated_count
        (get_unique_ci_strs_with_HF true
          (bitstring_matrix_to_ci_strs
            [[true, true, false, false, true, false, false, false],
             [false, true, false, false, true, false, false, false]]
            false).1
          (bitstring_matrix_to_ci_strs
            [[true, true, false, false, true, false, false, false],
             [false, true, false, false, true, false, false, false]]
            false).2 2) 2 = 1 := by
  decide

/-- Claim C8 fails on the code: with the output file failing to open,
`write_bytestrings_to_file` only prints an error and returns normally
(nothing written, no exception), and `write_alphadets_file` still
returns the artifact filename exactly as if the write had succeeded. -/
theorem open_failure_cex :
    (write_alphadets_file false true "runid" 4 2
        [[true, true, false, false, true, false, false, false]] 10 0).1
      = "AlphaDets_runid_0_cpp.bin"
    ∧ (write_alphadets_file false true "runid" 4 2
        [[true, true, false, false, true, false, false, false]] 10 0).2
      = ⟨none, true⟩ := by
  constructor
  · decide
  · rfl

/-- Claim C8 amended: when opening the output file fails, the failure is
consumed inside `write_bytestrings_to_file` (an error is reported and
nothing is written), it does not propagate, and `write_alphadets_file`
returns the artifact filename exactly as on success. -/
theorem open_failure_amended (with_hf : Bool) (run_id : String)
    (norb num_elec : Nat) (batch : List (List Bool))
    (maximum_numbers_of_ctrs i_recovery : Nat) (_hb : batch ≠ []) :
    (write_alphadets_file false with_hf run_id norb num_elec batch
        maximum_numbers_of_ctrs i_recovery).1
      = "AlphaDets_" ++ run_id ++ "_" ++ toString i_recovery ++ "_cpp.bin"
    ∧ (write_alphadets_file false with_hf run_id norb num_elec batch
        maximum_numbers_of_ctrs i_recovery).2.content = none
    ∧ (write_alphadets_file false with_hf run_id norb num_elec batch
        maximum_numbers_of_ctrs i_recovery).2.error_logged = true :=
  ⟨rfl, rfl, rfl⟩

theorem open_failure_amended_witness :
    ([[true, false]] : List (List Bool)) ≠ []
    ∧ ((write_alphadets_file false true "runid" 1 1 [[true, false]] 10 2).1
        = "AlphaDets_" ++ "runid" ++ "_" ++ toString 2 ++ "_cpp.bin"
      ∧ (write_alphadets_file false true "runid" 1 1 [[true, false]]
          10 2).2.content = none
      ∧ (write_alphadets_file false true "runid" 1 1 [[true, false]]
          10 2).2.error_logged = true) :=
  ⟨by decide, open_failure_amended true "runid" 1 1 [[true, false]] 10 2
    (by decide)⟩

/-- Claim C9 names a code bug: on an empty batch the code indexes
`bitstring_matrix[0]` with no guard, so the indexed element simply does
not exist (`head?` is `none` — in C++ this is an out-of-bounds read,
undefined behavior, not a surfaced hard failure); and if execution
proceeds past that read, the pipeline happily produces output: with the
reference flag on it writes the single Hartree-Fock record instead of
failing before any output. -/
theorem empty_batch_unguarded :
    bitstring_matrix_to_ci_strs_checked [] false = none
    ∧ bitstring_matrix_to_ci_strs_checked [] true = none
    ∧ (write_alphadets_file true true "runid" 4 2 [] 10 0).2.content
        = some (integer_to_bytes 3 4) := by
  refine ⟨rfl, rfl, ?_⟩
  decide
